import Mathlib

/-!
A verification development for the temporary-rvalue elimination pass
(`lib/SILOptimizer/Transforms/TempRValueElimination.cpp`).

The pass is embedded shallowly: each C++ routine becomes a Lean function over
an explicit model of the instruction data it inspects.  Basic blocks are
identified by natural numbers, instructions and address values by natural-number
ids.  The external collaborators (alias analysis, value-lifetime analysis) are
passed in as oracle parameters, mirroring how the C++ code receives them.
-/

namespace TempRValue

/-- Kind of an apply-like user of the temporary
(`PartialApplyInst` / `ApplyInst` / `TryApplyInst` / `BeginApplyInst`).
The on-stack flag of a stack-allocated closure is kept on its constructor. -/
inductive ApplyK : Type where
  | pApplyOnStack (onStack : Bool)
  | applyK
  | tryApplyK
  | beginApplyK
deriving DecidableEq

/- A user of the temporary's address (or of a transparent projection of it),
as inspected by `TempRValueOptPass::collectLoads`.  Each node records the
attributes the C++ switch reads off the instruction:
  * `beginAccess`: the access kind (`isRead`) and the `(id, block)` of each of
    its `end_access` instructions;
  * `markDepBase` / `markDepValue`: whether the examined address is the base
    operand (chain ends) or the value operand (recurse into the uses of the
    `mark_dependence` result);
  * `applyLike`: the argument convention (`guaranteed`) for the examined
    operand and, for `begin_apply`, the `(id, block)` of each token use;
  * `yieldK`: whether the operand convention is a guaranteed convention;
  * `openExist`: whether the opened-existential access is `Immutable`;
  * `takeEnum`: whether the operand type is an optional-like enum
    (`getOptionalObjectType`);
  * `projection`: `struct_element_addr` / `tuple_element_addr` /
    `unchecked_addr_cast`;
  * `loadK`: whether the load qualifier is `Take`;
  * `loadBorrow`: the scope-ending uses of the produced borrow, each with its
    `(id, block)` and whether it is an `end_borrow` (a non-`end_borrow`
    scope-ending use is a reborrow branch);
  * `copyAddrK`: whether the copy's destination equals the examined address
    and whether it is a take-of-source;
  * `otherK`: any other instruction kind (the `default` case).
Type-dependent operands are skipped by `collectLoadsFromProjection`, so child
lists contain only the non-type-dependent uses. -/
mutual
/-- Shape of one user instruction of the temporary's address; see the block
comment above for the meaning of each constructor. -/
inductive UseT : Type where
  | beginAccess (isRead : Bool) (ends : List (Nat × Nat)) : UseT
  | markDepBase : UseT
  | markDepValue (uses : UseL) : UseT
  | applyLike (ak : ApplyK) (guaranteed : Bool) (tokenUses : List (Nat × Nat)) : UseT
  | yieldK (guaranteed : Bool) : UseT
  | openExist (immutable : Bool) (uses : UseL) : UseT
  | takeEnum (isOptionalType : Bool) (uses : UseL) : UseT
  | projection (uses : UseL) : UseT
  | loadK (isTake : Bool) : UseT
  | loadBorrow (scopeEnds : List (Nat × Nat × Bool)) : UseT
  | fixLifetime : UseT
  | copyAddrK (destEqAddr : Bool) (takeOfSrc : Bool) : UseT
  | otherK : UseT

/-- A use-list: each entry is the user's instruction id, the user's basic
block, and the user's shape. -/
inductive UseL : Type where
  | nil : UseL
  | cons (id : Nat) (blk : Nat) (u : UseT) (rest : UseL) : UseL
end

/-- `InstructionSetWithSize::insert`: the recorded-read set is modelled as a
duplicate-free list; `size` is its length. -/
def insertNew (i : Nat) (s : List Nat) : List Nat :=
  if i ∈ s then s else i :: s

/-- The `begin_access [read]` arm: record each `end_access` as a load, failing
if one is outside the initializer's block. -/
def recordEnds (initBlk : Nat) (ends : List (Nat × Nat)) (acc : List Nat) :
    Option (List Nat) :=
  match ends with
  | [] => some acc
  | (eid, eblk) :: rest =>
    if eblk ≠ initBlk then none else recordEnds initBlk rest (insertNew eid acc)

/-- The `load_borrow` arm: visit the borrow's scope-ending uses; an
`end_borrow` in the initializer's block is recorded, anything else fails. -/
def recordBorrowEnds (initBlk : Nat) (ends : List (Nat × Nat × Bool))
    (acc : List Nat) : Option (List Nat) :=
  match ends with
  | [] => some acc
  | (eid, eblk, isEndBorrow) :: rest =>
    if ¬ isEndBorrow then none
    else if eblk ≠ initBlk then none
    else recordBorrowEnds initBlk rest (insertNew eid acc)

/-- The `begin_apply` token arm: record each token use, failing if one is
outside the initializer's block. -/
def recordTokenUses (initBlk : Nat) (uses : List (Nat × Nat)) (acc : List Nat) :
    Option (List Nat) :=
  match uses with
  | [] => some acc
  | (tid, tblk) :: rest =>
    if tblk ≠ initBlk then none
    else recordTokenUses initBlk rest (insertNew tid acc)

mutual
/-- `TempRValueOptPass::collectLoads`.  `initBlk` is the block of the
initializing copy, `addrIsWholeTemp` records whether the examined address is
the copy's destination itself (true at top level, false below any
projection), `(id, blk)` identify the user, `acc` is the running
`loadInsts` set.  Returns `none` on disqualification, otherwise the updated
recorded-read set. -/
def collectLoads (initBlk : Nat) (addrIsWholeTemp : Bool) (id : Nat)
    (blk : Nat) (u : UseT) (acc : List Nat) : Option (List Nat) :=
  -- All normal uses must be in the initialization block.
  if blk ≠ initBlk then none
  else
    match u with
    | .beginAccess isRead ends =>
      if ¬ isRead then none else recordEnds initBlk ends acc
    | .markDepBase => some acc
    | .markDepValue uses => collectLoadsList initBlk false uses acc
    | .applyLike ak guaranteed tokenUses =>
      match ak with
      | .pApplyOnStack onStack =>
        if ¬ onStack then none
        else if ¬ guaranteed then none
        else some (insertNew id acc)
      | .applyK =>
        if ¬ guaranteed then none else some (insertNew id acc)
      | .tryApplyK =>
        if ¬ guaranteed then none else some (insertNew id acc)
      | .beginApplyK =>
        if ¬ guaranteed then none
        else recordTokenUses initBlk tokenUses (insertNew id acc)
    | .yieldK guaranteed =>
      if ¬ guaranteed then none else some (insertNew id acc)
    | .openExist immutable uses =>
      if ¬ immutable then none else collectLoadsList initBlk false uses acc
    | .takeEnum isOpt uses =>
      if ¬ isOpt then none else collectLoadsList initBlk false uses acc
    | .projection uses => collectLoadsList initBlk false uses acc
    | .loadK isTake =>
      if isTake ∧ ¬ addrIsWholeTemp then none else some (insertNew id acc)
    | .loadBorrow scopeEnds => recordBorrowEnds initBlk scopeEnds (insertNew id acc)
    | .fixLifetime => some (insertNew id acc)
    | .copyAddrK destEqAddr takeOfSrc =>
      if destEqAddr then none
      else if takeOfSrc ∧ ¬ addrIsWholeTemp then none
      else some (insertNew id acc)
    | .otherK => none

/-- `TempRValueOptPass::collectLoadsFromProjection`: fold `collectLoads` over
the uses of a projection. -/
def collectLoadsList (initBlk : Nat) (addrIsWholeTemp : Bool) (us : UseL)
    (acc : List Nat) : Option (List Nat) :=
  match us with
  | .nil => some acc
  | .cons id blk u rest =>
    match collectLoads initBlk addrIsWholeTemp id blk u acc with
    | none => none
    | some acc2 => collectLoadsList initBlk addrIsWholeTemp rest acc2
end

/-- Kind tag of an instruction inside the initializer's block, recording
exactly what `getLastUseWhileSourceIsNotModified`, `extendAccessScopes`,
the re-initialization guard and the commit's `needToInsertDestroy` lambda
read off it:
  * `applyOrYield`: `FullApplySite::isa(inst)` or `isa<YieldInst>(inst)`;
  * `destroyAddr`: `isa<DestroyAddrInst>(inst)`;
  * `copyAddr`: whether its source operand is the temporary and whether it is
    a take-of-source;
  * `load`: whether its operand is the temporary and whether its qualifier is
    `Take`;
  * `endAccess`: the address id of its source and whether its `begin_access`
    kind is `Read`;
  * `beginAccessK` / `beginUnpairedK`: scope-opening markers;
  * `otherKind`: anything else. -/
inductive SKind : Type where
  | applyOrYield
  | destroyAddr
  | copyAddr (srcIsTemp : Bool) (takeOfSrc : Bool)
  | load (opIsTemp : Bool) (isTakeQual : Bool)
  | endAccess (source : Nat) (beginIsRead : Bool)
  | beginAccessK
  | beginUnpairedK
  | otherKind
deriving DecidableEq

/-- An instruction in the initializer's block, strictly after the initializing
copy: its id, kind tag and whether it is a block terminator. -/
structure SInst : Type where
  id : Nat
  kind : SKind
  isTerm : Bool
deriving DecidableEq

/-- The lifetime boundary returned by `getLastUseWhileSourceIsNotModified`:
either the initializing copy itself (empty recorded-read set) or an
instruction after it. -/
inductive Boundary : Type where
  | initCopyB
  | instB (s : SInst)
deriving DecidableEq

/-- Scan loop of `getLastUseWhileSourceIsNotModified` (the `for` loop starting
at `std::next(copyInst->getIterator())`).  `useLen` is `useInsts.size()`,
`found` the running `numLoadsFound`, `mw i` is
`aa->mayWriteToMemory(i, copySrc)`.  On success returns the boundary
instruction together with the scanned range (the instructions strictly after
the copy, up to and including the boundary), which the caller hands to
`extendAccessScopes`. -/
def lastUseScan (useInsts : List Nat) (mw : SInst → Bool) (found : Nat) :
    List SInst → Option (SInst × List SInst)
  | [] => none
  | i :: rest =>
    let found2 := if i.id ∈ useInsts then found + 1 else found
    if found2 = useInsts.length then
      if i.kind = .applyOrYield ∧ mw i then none
      else some (i, [i])
    else if mw i then none
    else
      match lastUseScan useInsts mw found2 rest with
      | none => none
      | some (b, pre) => some (b, i :: pre)

/-- `TempRValueOptPass::getLastUseWhileSourceIsNotModified`.  `insts` are the
instructions of the initializer's block strictly after the initializing copy,
in block order.  Returns `none` if the copy's source may be modified within
the temporary's lifetime (or a recorded read is missing from the block),
otherwise the lifetime boundary together with the scanned range. -/
def getLastUseWhileSourceIsNotModified (useInsts : List Nat)
    (mw : SInst → Bool) (insts : List SInst) :
    Option (Boundary × List SInst) :=
  if useInsts.isEmpty then some (.initCopyB, [])
  else
    match lastUseScan useInsts mw 0 insts with
    | none => none
    | some (b, pre) => some (.instB b, pre)

/-- Result of the `extendAccessScopes` scan: failure (recording whether an
`end_access` relocation candidate had already been selected when the scan
failed) or success with the candidate to relocate (id and source address), if
any. -/
inductive ExtResult : Type where
  | failed (candSelected : Bool)
  | ok (moved : Option (Nat × Nat))
deriving DecidableEq

/-- Scan loop of `TempRValueOptPass::extendAccessScopes` over
`make_range(std::next(copyInst->getIterator()), std::next(lastUseInst->getIterator()))`.
`noAlias a b` is `aa->isNoAlias(a, b)`, `mayWrite i a` is
`aa->mayWriteToMemory(i, a)`, `copySrc` the source address of the copy,
`lastIsTerm` whether the boundary instruction is a terminator, and `cand` the
running `endAccessToMove` (id and source address). -/
def extendScan (noAlias : Nat → Nat → Bool) (mayWrite : Nat → Nat → Bool)
    (copySrc : Nat) (lastIsTerm : Bool) (cand : Option (Nat × Nat)) :
    List SInst → ExtResult
  | [] => .ok cand
  | i :: rest =>
    match i.kind with
    | .endAccess source beginIsRead =>
      -- We can just move a single end_access; never move one over another.
      if cand.isSome then .failed true
      else if ¬ noAlias copySrc source ∧ beginIsRead then
        if lastIsTerm then .failed false
        else extendScan noAlias mayWrite copySrc lastIsTerm (some (i.id, source)) rest
      else extendScan noAlias mayWrite copySrc lastIsTerm cand rest
    | .beginAccessK =>
      match cand with
      | some _ => .failed true
      | none => extendScan noAlias mayWrite copySrc lastIsTerm cand rest
    | .beginUnpairedK =>
      match cand with
      | some _ => .failed true
      | none => extendScan noAlias mayWrite copySrc lastIsTerm cand rest
    | _ =>
      match cand with
      | some c =>
        if mayWrite i.id c.2 then .failed true
        else extendScan noAlias mayWrite copySrc lastIsTerm cand rest
      | none => extendScan noAlias mayWrite copySrc lastIsTerm cand rest

/-- `TempRValueOptPass::extendAccessScopes`: run the scan; `none` means the
whole elimination attempt fails, `some m` means success, relocating the
`end_access` in `m` (if any) to immediately after the boundary. -/
def extendAccessScopes (noAlias : Nat → Nat → Bool)
    (mayWrite : Nat → Nat → Bool) (copySrc : Nat) (lastIsTerm : Bool)
    (range : List SInst) : Option (Option (Nat × Nat)) :=
  match extendScan noAlias mayWrite copySrc lastIsTerm none range with
  | .failed _ => none
  | .ok m => some m

/-- `EndAccessInst::moveAfter(lastUseInst)` on the scanned range: the boundary
is the last instruction of the range, so the chosen end-access is unlinked
and re-inserted immediately after it. -/
def moveEndAccessAfterBoundary (range : List SInst) (eid : Nat) : List SInst :=
  List.filter (fun i => i.id ≠ eid) range ++ List.filter (fun i => i.id = eid) range

/-- What `checkTempObjectDestroy` reads off the instruction immediately
preceding a frontier point: a `destroy_addr` (of the temporary — the frontier
points of the lifetime analysis sit right after users of the temporary), a
`copy_addr` whose source is the temporary (with its take-of-source flag —
`cai->getSrc() == tempObj` is asserted), or anything else. -/
inductive PrevK : Type where
  | destroyAddrP
  | copyAddrP (takeOfSrc : Bool)
  | otherP
deriving DecidableEq

/-- One point of the temporary's liveness frontier as computed by the external
`ValueLifetimeAnalysis` collaborator: whether the point sits at the head of
its basic block, and the shape of the immediately preceding instruction
(meaningful only when not at a block head). -/
structure FrontierPt : Type where
  atBlockBegin : Bool
  prev : PrevK
deriving DecidableEq

/-- `TempRValueOptPass::checkTempObjectDestroy`.  The frontier computation is
an external collaborator (`ValueLifetimeAnalysis::computeFrontier`), passed in
as an oracle: `none` models a failed `computeFrontier`.  Accepts only when
every frontier point is inside a block and directly preceded by a
`destroy_addr` or a `copy_addr [take]` from the temporary. -/
def checkTempObjectDestroy (frontier : Option (List FrontierPt)) : Bool :=
  match frontier with
  | none => false
  | some pts =>
    pts.all fun p =>
      if p.atBlockBegin then false
      else
        match p.prev with
        | .destroyAddrP => true
        | .copyAddrP takeOfSrc => takeOfSrc
        | .otherP => false

/-- A direct use of the temporary `alloc_stack`, as walked by the use loop of
`tryOptimizeCopyIntoTemp` (and again by its commit loop): the initializing
copy itself, a `dealloc_stack`, a `destroy_addr`, or a regular use handled by
`collectLoads`. -/
inductive TUse : Type where
  | initCopy
  | deallocStackU (id : Nat) (blk : Nat)
  | destroyAddrU (id : Nat) (blk : Nat)
  | regular (id : Nat) (blk : Nat) (u : UseT)

/-- The use-collection loop of `tryOptimizeCopyIntoTemp` (lines 552–581):
skip the copy itself and deallocations; handle `destroy_addr` specially (in
non-OSSA mode with a taking copy it must be in the initializer's block and is
recorded as a load); hand everything else to `collectLoads`. -/
def collectAllUses (isOSSA needFinalDeinit : Bool) (copyBlk : Nat) :
    List TUse → List Nat → Option (List Nat)
  | [], acc => some acc
  | u :: rest, acc =>
    match u with
    | .initCopy => collectAllUses isOSSA needFinalDeinit copyBlk rest acc
    | .deallocStackU _ _ => collectAllUses isOSSA needFinalDeinit copyBlk rest acc
    | .destroyAddrU id blk =>
      if ¬ isOSSA ∧ needFinalDeinit then
        if blk ≠ copyBlk then none
        else collectAllUses isOSSA needFinalDeinit copyBlk rest (insertNew id acc)
      else collectAllUses isOSSA needFinalDeinit copyBlk rest acc
    | .regular id blk ut =>
      match collectLoads copyBlk true id blk ut acc with
      | none => none
      | some acc2 => collectAllUses isOSSA needFinalDeinit copyBlk rest acc2

/-- The instruction id of a direct use (the initializing copy carries none;
it can never occur in the block before itself). -/
def tuseId : TUse → Option Nat
  | .initCopy => none
  | .deallocStackU id _ => some id
  | .destroyAddrU id _ => some id
  | .regular id _ _ => some id

/-- The `userSet` of `tryOptimizeCopyIntoTemp`, as instruction ids. -/
def userIds (us : List TUse) : List Nat := us.filterMap tuseId

/-- Result of the access-path walk of the lexical guard
(`AccessStorageWithBase::compute` on the copy's source): the storage base, if
found, is either a function argument (with whether its ownership is
`Guaranteed`) or some other base. -/
inductive LexBase : Type where
  | funcArg (guaranteed : Bool)
  | nonArgBase
deriving DecidableEq

/-- Everything `tryOptimizeCopyIntoTemp` reads about one candidate copy:
the candidate's own flags, the function's ownership mode, the direct uses of
the destination `alloc_stack`, the ids of the instructions before the copy in
its block, the instructions after it (in block order), and the alias- and
lifetime-analysis oracles.  `copySrc` is the address id of the copy's
source. -/
structure CopyConfig : Type where
  isInitOfDest : Bool
  destIsAllocStack : Bool
  tempIsLexical : Bool
  lexicalBase : Option LexBase
  isOSSA : Bool
  isTakeOfSrc : Bool
  copyBlk : Nat
  uses : List TUse
  instsBefore : List Nat
  instsAfter : List SInst
  copySrc : Nat
  mayWrite : Nat → Nat → Bool
  noAlias : Nat → Nat → Bool
  frontier : Option (List FrontierPt)

/-- The `needToInsertDestroy` lambda of the commit (lines 632–657): a destroy
of the source must be synthesized unless the boundary instruction is itself
the final consuming take of the whole temporary (a `copy_addr [take]` from
the temporary or a `load [take]` of the temporary). -/
def needToInsertDestroy (needFinalDeinit : Bool) (b : Boundary) : Bool :=
  if ¬ needFinalDeinit then false
  else
    match b with
    | .initCopyB => true
    | .instB s =>
      match s.kind with
      | .copyAddr srcIsTemp takeOfSrc => ! (srcIsTemp && takeOfSrc)
      | .load opIsTemp isTakeQual => ! (opIsTemp && isTakeQual)
      | _ => true

/-- Outcome of the commit loop for one direct use of the temporary:
  * `erased`: the instruction was erased (`destroy_addr` / `dealloc_stack`);
  * `identityCopy`: the initializing copy's destination operand was redirected
    to the copy's source, so its source and destination are now identical; the
    instruction itself is not erased;
  * `copyFromSrc` / `loadFromSrc`: the operand was redirected to the source,
    with the instruction's final take-flag / `Take`-qualifier;
  * `redirected`: the operand was redirected to the source, instruction
    otherwise untouched. -/
inductive Rewritten : Type where
  | erased (id : Nat)
  | identityCopy
  | copyFromSrc (id : Nat) (takeOfSrc : Bool)
  | loadFromSrc (id : Nat) (isTakeQual : Bool)
  | redirected (id : Nat)
deriving DecidableEq

/-- One step of the commit's `while (!tempObj->use_empty())` loop
(lines 674–711).  `boundaryId` is the id of the boundary instruction, if it
is not the copy itself. -/
def rewriteUse (needFinalDeinit : Bool) (boundaryId : Option Nat) :
    TUse → Rewritten
  | .initCopy => .identityCopy
  | .destroyAddrU id _ => .erased id
  | .deallocStackU id _ => .erased id
  | .regular id _ ut =>
    match ut with
    | .copyAddrK _ takeOfSrc =>
      if takeOfSrc ∧ (¬ needFinalDeinit ∨ boundaryId ≠ some id) then
        .copyFromSrc id false
      else
        .copyFromSrc id takeOfSrc
    | .loadK isTake =>
      if isTake ∧ (¬ needFinalDeinit ∨ boundaryId ≠ some id) then
        .loadFromSrc id false
      else
        .loadFromSrc id isTake
    | _ => .redirected id

/-- The IR mutations performed by a committed copy elimination. -/
structure CommitEffect : Type where
  /-- Per-use outcomes of draining the temporary's use list. -/
  rewrites : List Rewritten
  /-- Whether a `destroy_addr` of the copy's source was created immediately
  after the boundary instruction. -/
  destroyOfSrcInserted : Bool
  /-- The `end_access` relocated to after the boundary, if any. -/
  movedEndAccess : Option (Nat × Nat)
  /-- `tempObj->eraseFromParent()`. -/
  tempAllocErased : Bool
deriving DecidableEq

/-- The re-initialization guard (lines 611–614): with a taking copy, bail if
the boundary is a later instruction that is not a `destroy_addr` and may
write to the copy's source (it would re-initialize the source before the
synthesized destroy). -/
def reinitGuardFires (isTakeOfSrc : Bool) (mw : SInst → Bool) :
    Boundary → Bool
  | .initCopyB => false
  | .instB s => isTakeOfSrc && ! decide (s.kind = SKind.destroyAddr) && mw s

/-- The id of the boundary instruction, when it is not the copy itself. -/
def boundaryId : Boundary → Option Nat
  | .initCopyB => none
  | .instB s => some s.id

/-- Whether the boundary instruction is a block terminator. -/
def boundaryIsTerm : Boundary → Bool
  | .initCopyB => false
  | .instB s => s.isTerm

/-- `TempRValueOptPass::tryOptimizeCopyIntoTemp`, as a function from the
candidate's configuration to the IR mutations performed: `none` means the
candidate was disqualified and the IR is unmodified (nothing inserted, erased,
moved, or redirected). -/
def tryOptimizeCopyIntoTemp (cfg : CopyConfig) : Option CommitEffect :=
  if ¬ cfg.isInitOfDest then none
  else if ¬ cfg.destIsAllocStack then none
  else if cfg.tempIsLexical ∧
      (cfg.lexicalBase = none ∨ cfg.lexicalBase = some (.funcArg false)) then
    none
  else
    match collectAllUses cfg.isOSSA cfg.isTakeOfSrc cfg.copyBlk cfg.uses [] with
    | none => none
    | some loadInsts =>
      -- Bail if any user of tempObj precedes the copy in its block.
      if cfg.instsBefore.any (fun i => i ∈ userIds cfg.uses) then none
      else
        match getLastUseWhileSourceIsNotModified loadInsts
            (fun i => cfg.mayWrite i.id cfg.copySrc) cfg.instsAfter with
        | none => none
        | some (b, range) =>
          -- Re-initialization guard: don't insert the destroy of the source
          -- after an instruction that itself writes the source back.
          if reinitGuardFires cfg.isTakeOfSrc
              (fun i => cfg.mayWrite i.id cfg.copySrc) b then none
          else if ¬ cfg.isOSSA ∧ ¬ checkTempObjectDestroy cfg.frontier then none
          else
            match extendAccessScopes cfg.noAlias cfg.mayWrite cfg.copySrc
                (boundaryIsTerm b) range with
            | none => none
            | some moved =>
              some
                { rewrites := cfg.uses.map (rewriteUse cfg.isTakeOfSrc (boundaryId b))
                  destroyOfSrcInserted := needToInsertDestroy cfg.isTakeOfSrc b
                  movedEndAccess := moved
                  tempAllocErased := true }

/-- Following the spec's words: the lifetime boundary "is itself the final
consuming take" when it is a take-copy or take-load targeting the whole
temporary.  Stated separately from `needToInsertDestroy` (which is translated
from the commit's lambda) so the two can be compared. -/
def boundaryIsFinalConsumingTake : Boundary → Bool
  | .initCopyB => false
  | .instB s =>
    match s.kind with
    | .copyAddr srcIsTemp takeOfSrc => srcIsTemp && takeOfSrc
    | .load opIsTemp isTakeQual => opIsTemp && isTakeQual
    | _ => false

/-- Ownership qualifier of a `load` in the store-elimination path. -/
inductive LoadQ : Type where
  | copyQ
  | takeQ
  | trivialQ
deriving DecidableEq

/-- A direct use of the temporary in `tryOptimizeStoreIntoTemp`, with the
attributes its two use loops read. -/
inductive StUse : Type where
  | destroyAddrS (id : Nat)
  | deallocStackS (id : Nat)
  | loadS (id : Nat) (qual : LoadQ)
  | fixLifetimeS (id : Nat)
  | copyAddrS (id : Nat) (destIsTemp : Bool) (isInitOfDest : Bool) (takeOfSrc : Bool)
  | markDepS (id : Nat) (valueIsTemp : Bool)
  | otherS (id : Nat)
deriving DecidableEq

/-- The bail-out scan of `tryOptimizeStoreIntoTemp` (lines 756–780): every
use must be of a handled kind; a `copy_addr` writing into the temporary or a
`mark_dependence` with the temporary as value operand (or any unknown kind)
bails. -/
def storeUsesAllowed : List StUse → Bool
  | [] => true
  | u :: rest =>
    match u with
    | .destroyAddrS _ => storeUsesAllowed rest
    | .deallocStackS _ => storeUsesAllowed rest
    | .loadS _ _ => storeUsesAllowed rest
    | .fixLifetimeS _ => storeUsesAllowed rest
    | .copyAddrS _ destIsTemp _ _ =>
      if destIsTemp then false else storeUsesAllowed rest
    | .markDepS _ valueIsTemp =>
      if valueIsTemp then false else storeUsesAllowed rest
    | .otherS _ => false

/-- Outcome of the store-elimination rewrite loop for one use; every rewritten
user is pushed onto `toDelete` and erased afterwards:
  * `destroyValueOfSrc`: a value-level destroy of the stored value replaces
    the `destroy_addr`;
  * `deletedOnly`: the `dealloc_stack` is just deleted;
  * `storeToDest`: the `copy_addr` from the temporary becomes a store of the
    stored value (`duplicated` when the copy was not a take;
    `isInitQual` selects the Init vs. Assign store qualifier);
  * `loadReplacedBySrc`: the load's results are replaced by the stored value
    (`duplicated` when a fresh copy of the stored value was created first);
  * `fixOnSrc`: the `fix_lifetime` is re-created on the stored value;
  * `markDepOnSrc`: the `mark_dependence` is rebuilt against the stored
    value. -/
inductive StRes : Type where
  | destroyValueOfSrc (id : Nat)
  | deletedOnly (id : Nat)
  | storeToDest (id : Nat) (duplicated : Bool) (isInitQual : Bool)
  | loadReplacedBySrc (id : Nat) (duplicated : Bool)
  | fixOnSrc (id : Nat)
  | markDepOnSrc (id : Nat)
deriving DecidableEq

/-- One step of the store-elimination rewrite loop (lines 791–865).  The
`default` arm is `llvm_unreachable` — an internal-consistency failure,
modelled as `none`. -/
def rewriteStoreUse : StUse → Option StRes
  | .destroyAddrS id => some (.destroyValueOfSrc id)
  | .deallocStackS id => some (.deletedOnly id)
  | .copyAddrS id _ isInitOfDest takeOfSrc =>
    some (.storeToDest id (! takeOfSrc) isInitOfDest)
  | .loadS id qual => some (.loadReplacedBySrc id (decide (qual = .copyQ)))
  | .fixLifetimeS id => some (.fixOnSrc id)
  | .markDepS id _ => some (.markDepOnSrc id)
  | .otherS _ => none

/-- The store-elimination rewrite loop over all uses of the temporary (the
store itself excluded). -/
def rewriteStoreUses : List StUse → Option (List StRes)
  | [] => some []
  | u :: rest =>
    match rewriteStoreUse u with
    | none => none
    | some r =>
      match rewriteStoreUses rest with
      | none => none
      | some rs => some (r :: rs)

/-- The id of a rewritten store-path user; every one of them is pushed onto
`toDelete` and erased after the loop. -/
def stResId : StRes → Nat
  | .destroyValueOfSrc id => id
  | .deletedOnly id => id
  | .storeToDest id _ _ => id
  | .loadReplacedBySrc id _ => id
  | .fixOnSrc id => id
  | .markDepOnSrc id => id

/-- The `toDelete` worklist of the store-elimination rewrite. -/
def storeDeletedIds (rs : List StRes) : List Nat := rs.map stResId

/-- What the pass driver (`TempRValueOptPass::run`) reads about one scanned
instruction after dispatching the rewrites: whether it is a `copy_addr`,
whether its source and destination operands are identical at that point, and
the defining instruction of its source, if any. -/
structure RInst : Type where
  id : Nat
  isCopyAddr : Bool
  srcEqDest : Bool
  srcDef : Option Nat
deriving DecidableEq

/-- The driver's `deadCopies` set: every scanned `copy_addr` whose source and
destination are identical is queued for deletion. -/
def collectDeadCopies (l : List RInst) : List Nat :=
  (l.filter fun i => i.isCopyAddr && i.srcEqDest).map (fun i => i.id)

/-- The driver's state after the cleanup that follows the scan. -/
structure DriverResult : Type where
  /-- The function's instructions after erasing the queued dead copies. -/
  remaining : List RInst
  /-- The source-defining instructions handed to the simplify-and-erase
  collaborator after each dead copy was erased. -/
  simplified : List Nat
deriving DecidableEq

/-- The cleanup loop of `TempRValueOptPass::run` (lines 951–959): erase every
queued dead copy and simplify its source-defining instruction. -/
def driverCleanup (l : List RInst) : DriverResult :=
  { remaining := l.filter fun i => ¬ (i.isCopyAddr ∧ i.srcEqDest)
    simplified := (l.filter fun i => i.isCopyAddr && i.srcEqDest).filterMap
      (fun i => i.srcDef) }

/-- A concrete candidate used to exercise the pipeline: a non-OSSA function,
a taking initializing copy, one plain load of the temporary, a same-block
`destroy_addr` and an out-of-block `dealloc_stack`. -/
def cfgC1 : CopyConfig :=
  { isInitOfDest := true
    destIsAllocStack := true
    tempIsLexical := false
    lexicalBase := none
    isOSSA := false
    isTakeOfSrc := true
    copyBlk := 0
    uses := [.initCopy, .regular 1 0 (.loadK false), .destroyAddrU 2 0,
             .deallocStackU 3 1]
    instsBefore := []
    instsAfter := [⟨1, .load true false, false⟩, ⟨2, .destroyAddr, false⟩]
    copySrc := 7
    mayWrite := fun _ _ => false
    noAlias := fun _ _ => true
    frontier := some [⟨false, .destroyAddrP⟩] }

/-- The same candidate in an OSSA (linear-ownership) function, with a failed
frontier computation: the destroy-pattern validator must not be consulted. -/
def cfgOssa : CopyConfig := { cfgC1 with isOSSA := true }

/-- A candidate whose copy is not an initialization of its destination. -/
def cfgNoDestInit : CopyConfig := { cfgC1 with isInitOfDest := false }

/-- The commit effect produced on `cfgC1`: the load is redirected to the
source, the destroy and dealloc are erased, the initializing copy becomes an
identity copy, a destroy of the source is synthesized, the allocation is
erased. -/
def effC1 : CommitEffect :=
  { rewrites := [Rewritten.identityCopy, Rewritten.loadFromSrc 1 false,
      Rewritten.erased 2, Rewritten.erased 3]
    destroyOfSrcInserted := true
    movedEndAccess := none
    tempAllocErased := true }

/-! Theorems. -/

/-- If some `end_access` of a Read-scope lies outside the initializer's block,
recording the scope's ends fails. -/
theorem recordEnds_none_of_other_block {initBlk eid eblk : Nat} :
    ∀ (ends : List (Nat × Nat)) (acc : List Nat),
      (eid, eblk) ∈ ends → eblk ≠ initBlk →
      recordEnds initBlk ends acc = none := by
  intro ends
  induction ends with
  | nil => intro acc h _; simp at h
  | cons hd tl ih =>
    intro acc hmem hne
    obtain ⟨a, b⟩ := hd
    rcases List.mem_cons.mp hmem with heq | hmem2
    · obtain ⟨rfl, rfl⟩ := Prod.mk.injEq .. ▸ heq
      simp only [recordEnds, if_pos hne]
    · by_cases hb : b ≠ initBlk
      · simp only [recordEnds, if_pos hb]
      · simp only [recordEnds, if_neg hb]
        exact ih _ hmem2 hne

/-- If some token use of a `begin_apply` lies outside the initializer's
block, recording the token uses fails. -/
theorem recordTokenUses_none_of_other_block {initBlk tid tblk : Nat} :
    ∀ (uses : List (Nat × Nat)) (acc : List Nat),
      (tid, tblk) ∈ uses → tblk ≠ initBlk →
      recordTokenUses initBlk uses acc = none := by
  intro uses
  induction uses with
  | nil => intro acc h _; simp at h
  | cons hd tl ih =>
    intro acc hmem hne
    obtain ⟨a, b⟩ := hd
    rcases List.mem_cons.mp hmem with heq | hmem2
    · obtain ⟨rfl, rfl⟩ := Prod.mk.injEq .. ▸ heq
      simp only [recordTokenUses, if_pos hne]
    · by_cases hb : b ≠ initBlk
      · simp only [recordTokenUses, if_pos hb]
      · simp only [recordTokenUses, if_neg hb]
        exact ih _ hmem2 hne

/-- If some scope-ending use of a `load_borrow` is an `end_borrow` outside
the initializer's block (or a reborrow), recording the borrow ends fails. -/
theorem recordBorrowEnds_none_of_other_block {initBlk eid eblk : Nat}
    {isEB : Bool} :
    ∀ (ends : List (Nat × Nat × Bool)) (acc : List Nat),
      (eid, eblk, isEB) ∈ ends → eblk ≠ initBlk →
      recordBorrowEnds initBlk ends acc = none := by
  intro ends
  induction ends with
  | nil => intro acc h _; simp at h
  | cons hd tl ih =>
    intro acc hmem hne
    obtain ⟨a, b, c⟩ := hd
    rcases List.mem_cons.mp hmem with heq | hmem2
    · obtain ⟨rfl, rfl, rfl⟩ : eid = a ∧ eblk = b ∧ isEB = c := by
        simpa using heq
      by_cases hc : isEB = true <;> simp [recordBorrowEnds, hc, hne]
    · by_cases hc : ¬ c
      · simp only [recordBorrowEnds, if_pos hc]
      · by_cases hb : b ≠ initBlk
        · simp only [recordBorrowEnds, if_neg hc, if_pos hb]
        · simp only [recordBorrowEnds, if_neg hc, if_neg hb]
          exact ih _ hmem2 hne

/-- C3: any operand use of the temporary (or of a transparent projection of
it) whose using instruction is in a different basic block than the
initializing copy disqualifies the candidate; the same-block requirement also
applies to the end-access instructions of a Read-kind begin-access, to every
use of a begin-apply's token, and to every end-borrow ending a load-borrow's
scope. -/
theorem collectLoads_same_block (initBlk : Nat) (whole : Bool) (id blk : Nat)
    (u : UseT) (acc : List Nat) :
    (blk ≠ initBlk → collectLoads initBlk whole id blk u acc = none) ∧
    (∀ ends eid eblk, u = UseT.beginAccess true ends → (eid, eblk) ∈ ends →
      eblk ≠ initBlk → collectLoads initBlk whole id blk u acc = none) ∧
    (∀ g tok tid tblk, u = UseT.applyLike ApplyK.beginApplyK g tok →
      (tid, tblk) ∈ tok → tblk ≠ initBlk →
      collectLoads initBlk whole id blk u acc = none) ∧
    (∀ ends eid eblk isEB, u = UseT.loadBorrow ends → (eid, eblk, isEB) ∈ ends →
      eblk ≠ initBlk → collectLoads initBlk whole id blk u acc = none) := by
  refine ⟨?_, ?_, ?_, ?_⟩
  · intro h
    cases u <;> simp [collectLoads, h]
  · rintro ends eid eblk rfl hmem hne
    by_cases hb : blk ≠ initBlk
    · simp [collectLoads, hb]
    · push_neg at hb
      subst hb
      simpa [collectLoads] using recordEnds_none_of_other_block ends acc hmem hne
  · rintro g tok tid tblk rfl hmem hne
    by_cases hb : blk ≠ initBlk
    · simp [collectLoads, hb]
    · push_neg at hb
      subst hb
      by_cases hg : g = true
      · subst hg
        simpa [collectLoads] using
          recordTokenUses_none_of_other_block tok (insertNew id acc) hmem hne
      · simp [collectLoads, hg]
  · rintro ends eid eblk isEB rfl hmem hne
    by_cases hb : blk ≠ initBlk
    · simp [collectLoads, hb]
    · push_neg at hb
      subst hb
      simpa [collectLoads] using
        recordBorrowEnds_none_of_other_block ends (insertNew id acc) hmem hne

/-- Witness for C3 at concrete inputs: a load in block 1 while the
initializing copy is in block 0 is disqualified. -/
theorem collectLoads_same_block_witness :
    collectLoads 0 true 5 1 (UseT.loadK false) [] = none :=
  (collectLoads_same_block 0 true 5 1 (UseT.loadK false) []).1 (by decide)

/-- C4: a `load [take]` or a take-of-source `copy_addr` reading from the
temporary is disqualified when the consumed address is a proper sub-object
projection rather than the whole temporary, and is recorded as a terminal
read when it consumes the whole temporary; a `copy_addr` whose destination is
the examined address (a write into the temporary) is always disqualified. -/
theorem collectLoads_take_whole (initBlk : Nat) (whole : Bool) (id : Nat)
    (acc : List Nat) :
    (whole = false →
      collectLoads initBlk whole id initBlk (UseT.loadK true) acc = none) ∧
    (whole = true →
      collectLoads initBlk whole id initBlk (UseT.loadK true) acc =
        some (insertNew id acc)) ∧
    (collectLoads initBlk whole id initBlk (UseT.loadK false) acc =
      some (insertNew id acc)) ∧
    (∀ t, collectLoads initBlk whole id initBlk (UseT.copyAddrK true t) acc =
      none) ∧
    (whole = false →
      collectLoads initBlk whole id initBlk (UseT.copyAddrK false true) acc =
        none) ∧
    (whole = true → ∀ t,
      collectLoads initBlk whole id initBlk (UseT.copyAddrK false t) acc =
        some (insertNew id acc)) := by
  refine ⟨?_, ?_, ?_, ?_, ?_, ?_⟩
  · rintro rfl; simp [collectLoads]
  · rintro rfl; simp [collectLoads]
  · simp [collectLoads]
  · intro t; simp [collectLoads]
  · rintro rfl; simp [collectLoads]
  · rintro rfl t; simp [collectLoads]

/-- Witness for C4 at concrete inputs: a `load [take]` from a projection of
the temporary is disqualified, a `load [take]` of the whole temporary is
recorded. -/
theorem collectLoads_take_whole_witness :
    collectLoads 0 false 4 0 (UseT.loadK true) [] = none ∧
    collectLoads 0 true 4 0 (UseT.loadK true) [] = some [4] :=
  ⟨(collectLoads_take_whole 0 false 4 []).1 rfl,
   (collectLoads_take_whole 0 true 4 []).2.1 rfl⟩

/-- C10: a `dealloc_stack` use may lie in any basic block without
disqualifying the candidate, and so may a `destroy_addr` use when the
function is in linear-ownership (OSSA) mode or the initializing copy does not
take its source; only in non-OSSA mode with a taking copy does an
out-of-block `destroy_addr` disqualify, and a same-block `destroy_addr` is
then recorded as a terminal read. -/
theorem collectAllUses_destroy_dealloc (isOSSA needFinalDeinit : Bool)
    (copyBlk id blk : Nat) (rest : List TUse) (acc : List Nat) :
    (collectAllUses isOSSA needFinalDeinit copyBlk
        (TUse.deallocStackU id blk :: rest) acc =
      collectAllUses isOSSA needFinalDeinit copyBlk rest acc) ∧
    ((isOSSA = true ∨ needFinalDeinit = false) →
      collectAllUses isOSSA needFinalDeinit copyBlk
          (TUse.destroyAddrU id blk :: rest) acc =
        collectAllUses isOSSA needFinalDeinit copyBlk rest acc) ∧
    (isOSSA = false → needFinalDeinit = true → blk ≠ copyBlk →
      collectAllUses isOSSA needFinalDeinit copyBlk
          (TUse.destroyAddrU id blk :: rest) acc = none) ∧
    (isOSSA = false → needFinalDeinit = true → blk = copyBlk →
      collectAllUses isOSSA needFinalDeinit copyBlk
          (TUse.destroyAddrU id blk :: rest) acc =
        collectAllUses isOSSA needFinalDeinit copyBlk rest (insertNew id acc)) := by
  refine ⟨by simp [collectAllUses], ?_, ?_, ?_⟩
  · rintro (rfl | rfl) <;> simp [collectAllUses]
  · rintro rfl rfl hblk
    simp [collectAllUses, hblk]
  · rintro rfl rfl rfl
    simp [collectAllUses]

/-- Witness for C10 at concrete inputs: with an OSSA function and a taking
copy in block 0, a `destroy_addr` in block 3 does not disqualify. -/
theorem collectAllUses_destroy_dealloc_witness :
    collectAllUses true true 0 [TUse.destroyAddrU 9 3] [] =
      collectAllUses true true 0 [] [] :=
  (collectAllUses_destroy_dealloc true true 0 9 3 [] []).2.1 (Or.inl rfl)

/-- If some instruction may write to the copy's source while the running
read count (including that instruction) is still short of the recorded-read
set, the scan fails. -/
theorem lastUseScan_none_of_write (useInsts : List Nat) (mw : SInst → Bool) :
    ∀ (insts : List SInst) (found j : Nat) (hj : j < insts.length),
      mw (insts.get ⟨j, hj⟩) = true →
      found + (insts.take (j + 1)).countP (fun i => decide (i.id ∈ useInsts)) <
        useInsts.length →
      lastUseScan useInsts mw found insts = none := by
  intro insts
  induction insts with
  | nil => intro found j hj; simp at hj
  | cons i rest ih =>
    intro found j hj hmw hcount
    cases j with
    | zero =>
      by_cases hm : i.id ∈ useInsts
      · have hne : ¬ (found + 1 = useInsts.length) := by
          simp [List.countP_cons, hm] at hcount
          omega
        simp only [List.get] at hmw
        simp [lastUseScan, hm, hne, hmw]
      · have hne : ¬ (found = useInsts.length) := by
          simp [List.countP_cons, hm] at hcount
          omega
        simp only [List.get] at hmw
        simp [lastUseScan, hm, hne, hmw]
    | succ j2 =>
      have hj2 : j2 < rest.length := by simpa using hj
      have hmw2 : mw (rest.get ⟨j2, hj2⟩) = true := hmw
      by_cases hm : i.id ∈ useInsts
      · have hcount2 : (found + 1) +
            (rest.take (j2 + 1)).countP (fun x => decide (x.id ∈ useInsts)) <
            useInsts.length := by
          simp [List.countP_cons, hm] at hcount
          omega
        have hne : ¬ (found + 1 = useInsts.length) := by
          have h2 := hcount2
          omega
        have hrec := ih (found + 1) j2 hj2 hmw2 hcount2
        simp [lastUseScan, hm, hne, hrec]
      · have hcount2 : found +
            (rest.take (j2 + 1)).countP (fun x => decide (x.id ∈ useInsts)) <
            useInsts.length := by
          simp [List.countP_cons, hm] at hcount
          omega
        have hne : ¬ (found = useInsts.length) := by
          have h2 := hcount2
          omega
        have hrec := ih found j2 hj2 hmw2 hcount2
        simp [lastUseScan, hm, hne, hrec]

/-- Characterization of a successful scan: the boundary is the last-matched
recorded read, the returned range is the scanned block section ending at the
boundary, all recorded reads were matched, and the boundary is not a
may-writing apply or yield. -/
theorem lastUseScan_some (useInsts : List Nat) (mw : SInst → Bool) :
    ∀ (insts : List SInst) (found : Nat) (b : SInst) (pre : List SInst),
      found < useInsts.length →
      lastUseScan useInsts mw found insts = some (b, pre) →
      b.id ∈ useInsts ∧
      ¬ (b.kind = SKind.applyOrYield ∧ mw b = true) ∧
      pre.getLast? = some b ∧
      (∃ n, pre = insts.take n) ∧
      found + pre.countP (fun i => decide (i.id ∈ useInsts)) =
        useInsts.length := by
  intro insts
  induction insts with
  | nil => intro found b pre hlt h; simp [lastUseScan] at h
  | cons i rest ih =>
    intro found b pre hlt h
    by_cases hm : i.id ∈ useInsts
    · by_cases hc : found + 1 = useInsts.length
      · by_cases hay : i.kind = SKind.applyOrYield ∧ mw i = true
        · simp [lastUseScan, hm, hc, hay] at h
        · simp [lastUseScan, hm, hc, hay] at h
          obtain ⟨rfl, rfl⟩ := h
          refine ⟨hm, hay, by simp, ⟨1, by simp⟩, ?_⟩
          simp [List.countP_cons, hm]
          omega
      · by_cases hmwi : mw i = true
        · simp [lastUseScan, hm, hc, hmwi] at h
        · have hlt2 : found + 1 < useInsts.length := by omega
          rcases hrec : lastUseScan useInsts mw (found + 1) rest with _ | p
          · simp [lastUseScan, hm, hc, hmwi, hrec] at h
          · obtain ⟨b0, pre0⟩ := p
            simp [lastUseScan, hm, hc, hmwi, hrec] at h
            obtain ⟨rfl, rfl⟩ := h
            obtain ⟨h1, h2, h3, ⟨n, hn⟩, h5⟩ := ih (found + 1) b0 pre0 hlt2 hrec
            refine ⟨h1, h2, ?_, ⟨n + 1, by simp [hn]⟩, ?_⟩
            · cases pre0 with
              | nil => simp at h3
              | cons x xs => simpa using h3
            · simp [List.countP_cons, hm]
              omega
    · by_cases hc : found = useInsts.length
      · omega
      · by_cases hmwi : mw i = true
        · simp [lastUseScan, hm, hc, hmwi] at h
        · rcases hrec : lastUseScan useInsts mw found rest with _ | p
          · simp [lastUseScan, hm, hc, hmwi, hrec] at h
          · obtain ⟨b0, pre0⟩ := p
            simp [lastUseScan, hm, hc, hmwi, hrec] at h
            obtain ⟨rfl, rfl⟩ := h
            obtain ⟨h1, h2, h3, ⟨n, hn⟩, h5⟩ := ih found b0 pre0 hlt hrec
            refine ⟨h1, h2, ?_, ⟨n + 1, by simp [hn]⟩, ?_⟩
            · cases pre0 with
              | nil => simp at h3
              | cons x xs => simpa using h3
            · simp [List.countP_cons, hm]
              omega

/-- C2: the modification checker scans the instructions strictly after the
initializing copy in block order; it fails if some instruction may write to
the copy's source before all recorded reads have been passed; on success it
returns the last-matched recorded read as the lifetime boundary — the
initializing copy itself when the recorded-read set is empty — and it fails
when the last-matched instruction is a call-like or yield instruction that
may write to the source address. -/
theorem getLastUse_spec (useInsts : List Nat) (mw : SInst → Bool)
    (insts : List SInst) :
    (useInsts = [] →
      getLastUseWhileSourceIsNotModified useInsts mw insts =
        some (Boundary.initCopyB, [])) ∧
    (∀ j (hj : j < insts.length),
      mw (insts.get ⟨j, hj⟩) = true →
      (insts.take (j + 1)).countP (fun i => decide (i.id ∈ useInsts)) <
        useInsts.length →
      getLastUseWhileSourceIsNotModified useInsts mw insts = none) ∧
    (∀ b pre,
      getLastUseWhileSourceIsNotModified useInsts mw insts =
        some (Boundary.instB b, pre) →
      b.id ∈ useInsts ∧
      ¬ (b.kind = SKind.applyOrYield ∧ mw b = true) ∧
      pre.getLast? = some b ∧
      (∃ n, pre = insts.take n) ∧
      pre.countP (fun i => decide (i.id ∈ useInsts)) = useInsts.length) := by
  refine ⟨?_, ?_, ?_⟩
  · rintro rfl
    simp [getLastUseWhileSourceIsNotModified]
  · intro j hj hmw hcount
    have hne : ¬ useInsts.isEmpty := by
      rcases useInsts with _ | ⟨x, xs⟩
      · simp at hcount
      · simp
    have hscan := lastUseScan_none_of_write useInsts mw insts 0 j hj hmw
      (by simpa using hcount)
    simp [getLastUseWhileSourceIsNotModified, hne, hscan]
  · intro b pre h
    by_cases hne : useInsts.isEmpty
    · simp [getLastUseWhileSourceIsNotModified, hne] at h
    · have hpos : 0 < useInsts.length := by
        rcases useInsts with _ | ⟨x, xs⟩
        · simp at hne
        · simp
      rcases hrec : lastUseScan useInsts mw 0 insts with _ | p
      · simp [getLastUseWhileSourceIsNotModified, hne, hrec] at h
      · obtain ⟨b0, pre0⟩ := p
        simp [getLastUseWhileSourceIsNotModified, hne, hrec] at h
        obtain ⟨rfl, rfl⟩ := h
        obtain ⟨h1, h2, h3, h4, h5⟩ := lastUseScan_some useInsts mw insts 0 b0 pre0 hpos hrec
        exact ⟨h1, h2, h3, h4, by omega⟩

/-- Witness for C2 at concrete inputs: one recorded read (id 5), matched by
the single instruction after the copy, a non-writing `load [take]`. -/
theorem getLastUse_spec_witness :
    (SInst.mk 5 (SKind.load true true) false).id ∈ [5] ∧
    ¬ ((SInst.mk 5 (SKind.load true true) false).kind = SKind.applyOrYield ∧
        (fun _ => false) (SInst.mk 5 (SKind.load true true) false) = true) ∧
    ([SInst.mk 5 (SKind.load true true) false].getLast? =
      some (SInst.mk 5 (SKind.load true true) false)) ∧
    (∃ n, [SInst.mk 5 (SKind.load true true) false] =
      ([SInst.mk 5 (SKind.load true true) false].take n)) ∧
    ([SInst.mk 5 (SKind.load true true) false].countP
      (fun i => decide (i.id ∈ [5])) = [5].length) :=
  (getLastUse_spec [5] (fun _ => false)
      [SInst.mk 5 (SKind.load true true) false]).2.2
    (SInst.mk 5 (SKind.load true true) false)
    [SInst.mk 5 (SKind.load true true) false] (by decide)

/-- Once a relocation candidate has been selected, the scan fails at the next
`end_access` (indeed at any scope marker or potential write). -/
theorem extendScan_failed_of_endAccess (noAlias mayWrite : Nat → Nat → Bool)
    (copySrc : Nat) (lastIsTerm : Bool) :
    ∀ (l : List SInst) (c : Nat × Nat),
      (∃ i ∈ l, ∃ s r, i.kind = SKind.endAccess s r) →
      extendScan noAlias mayWrite copySrc lastIsTerm (some c) l =
        ExtResult.failed true := by
  intro l
  induction l with
  | nil => intro c h; simp at h
  | cons i rest ih =>
    intro c h
    obtain ⟨iid, ikind, iterm⟩ := i
    have htail : (∃ s r, ikind = SKind.endAccess s r) ∨
        ∃ j ∈ rest, ∃ s r, j.kind = SKind.endAccess s r := by
      rcases h with ⟨j, hj, hks⟩
      rcases List.mem_cons.mp hj with rfl | hj2
      · exact Or.inl hks
      · exact Or.inr ⟨j, hj2, hks⟩
    cases ikind with
    | endAccess s r => simp [extendScan]
    | beginAccessK => simp [extendScan]
    | beginUnpairedK => simp [extendScan]
    | applyOrYield =>
      have hrest : ∃ j ∈ rest, ∃ s r, j.kind = SKind.endAccess s r := by
        rcases htail with ⟨s, r, hks⟩ | hr
        · simp at hks
        · exact hr
      by_cases hw : mayWrite iid c.2 = true <;>
        simp [extendScan, hw, ih c hrest]
    | destroyAddr =>
      have hrest : ∃ j ∈ rest, ∃ s r, j.kind = SKind.endAccess s r := by
        rcases htail with ⟨s, r, hks⟩ | hr
        · simp at hks
        · exact hr
      by_cases hw : mayWrite iid c.2 = true <;>
        simp [extendScan, hw, ih c hrest]
    | copyAddr st t =>
      have hrest : ∃ j ∈ rest, ∃ s r, j.kind = SKind.endAccess s r := by
        rcases htail with ⟨s, r, hks⟩ | hr
        · simp at hks
        · exact hr
      by_cases hw : mayWrite iid c.2 = true <;>
        simp [extendScan, hw, ih c hrest]
    | load ot t =>
      have hrest : ∃ j ∈ rest, ∃ s r, j.kind = SKind.endAccess s r := by
        rcases htail with ⟨s, r, hks⟩ | hr
        · simp at hks
        · exact hr
      by_cases hw : mayWrite iid c.2 = true <;>
        simp [extendScan, hw, ih c hrest]
    | otherKind =>
      have hrest : ∃ j ∈ rest, ∃ s r, j.kind = SKind.endAccess s r := by
        rcases htail with ⟨s, r, hks⟩ | hr
        · simp at hks
        · exact hr
      by_cases hw : mayWrite iid c.2 = true <;>
        simp [extendScan, hw, ih c hrest]

/-- If the range contains a Read-kind aliasing `end_access` (a relocation
candidate) and the boundary is a terminator, the scan fails. -/
theorem extendScan_failed_of_term (noAlias mayWrite : Nat → Nat → Bool)
    (copySrc : Nat) :
    ∀ (l : List SInst),
      (∃ e ∈ l, ∃ s, e.kind = SKind.endAccess s true ∧
        noAlias copySrc s = false) →
      ∃ flag, extendScan noAlias mayWrite copySrc true none l =
        ExtResult.failed flag := by
  intro l
  induction l with
  | nil => intro h; simp at h
  | cons i rest ih =>
    intro h
    have hstep : (∃ s, i.kind = SKind.endAccess s true ∧
        noAlias copySrc s = false) ∨
        ∃ e ∈ rest, ∃ s, e.kind = SKind.endAccess s true ∧
          noAlias copySrc s = false := by
      rcases h with ⟨e, he, s0, hks, hna⟩
      rcases List.mem_cons.mp he with rfl | he2
      · exact Or.inl ⟨s0, hks, hna⟩
      · exact Or.inr ⟨e, he2, s0, hks, hna⟩
    obtain ⟨iid, ikind, iterm⟩ := i
    cases ikind with
    | endAccess s r =>
      by_cases hcond : ¬ (noAlias copySrc s = true) ∧ r = true
      · exact ⟨false, by simp [extendScan, hcond.1, hcond.2]⟩
      · have hrest : ∃ e ∈ rest, ∃ s2, e.kind = SKind.endAccess s2 true ∧
            noAlias copySrc s2 = false := by
          rcases hstep with ⟨s0, hks, hna⟩ | hr
          · simp only [SKind.endAccess.injEq] at hks
            obtain ⟨rfl, rfl⟩ := hks
            exact absurd ⟨by simp [hna], rfl⟩ hcond
          · exact hr
        obtain ⟨flag, hflag⟩ := ih hrest
        refine ⟨flag, ?_⟩
        simp only [extendScan, Option.isSome_none, Bool.false_eq_true,
          if_false, if_neg hcond]
        exact hflag
    | beginAccessK =>
      have hrest := hstep.resolve_left (by rintro ⟨s0, hks, _⟩; simp at hks)
      obtain ⟨flag, hflag⟩ := ih hrest
      exact ⟨flag, by simpa [extendScan] using hflag⟩
    | beginUnpairedK =>
      have hrest := hstep.resolve_left (by rintro ⟨s0, hks, _⟩; simp at hks)
      obtain ⟨flag, hflag⟩ := ih hrest
      exact ⟨flag, by simpa [extendScan] using hflag⟩
    | applyOrYield =>
      have hrest := hstep.resolve_left (by rintro ⟨s0, hks, _⟩; simp at hks)
      obtain ⟨flag, hflag⟩ := ih hrest
      exact ⟨flag, by simpa [extendScan] using hflag⟩
    | destroyAddr =>
      have hrest := hstep.resolve_left (by rintro ⟨s0, hks, _⟩; simp at hks)
      obtain ⟨flag, hflag⟩ := ih hrest
      exact ⟨flag, by simpa [extendScan] using hflag⟩
    | copyAddr st t =>
      have hrest := hstep.resolve_left (by rintro ⟨s0, hks, _⟩; simp at hks)
      obtain ⟨flag, hflag⟩ := ih hrest
      exact ⟨flag, by simpa [extendScan] using hflag⟩
    | load ot t =>
      have hrest := hstep.resolve_left (by rintro ⟨s0, hks, _⟩; simp at hks)
      obtain ⟨flag, hflag⟩ := ih hrest
      exact ⟨flag, by simpa [extendScan] using hflag⟩
    | otherKind =>
      have hrest := hstep.resolve_left (by rintro ⟨s0, hks, _⟩; simp at hks)
      obtain ⟨flag, hflag⟩ := ih hrest
      exact ⟨flag, by simpa [extendScan] using hflag⟩

/-- If the range contains two Read-kind aliasing end-accesses (two relocation
candidates), the scan fails. -/
theorem extendScan_failed_of_two_candidates (noAlias mayWrite : Nat → Nat → Bool)
    (copySrc : Nat) (lastIsTerm : Bool) :
    ∀ (l1 l2 l3 : List SInst) (e1 e2 : SInst) (s1 s2 : Nat),
      e1.kind = SKind.endAccess s1 true → noAlias copySrc s1 = false →
      e2.kind = SKind.endAccess s2 true → noAlias copySrc s2 = false →
      ∃ flag, extendScan noAlias mayWrite copySrc lastIsTerm none
        (l1 ++ e1 :: l2 ++ e2 :: l3) = ExtResult.failed flag := by
  intro l1
  induction l1 with
  | nil =>
    intro l2 l3 e1 e2 s1 s2 hk1 hna1 hk2 hna2
    obtain ⟨eid1, ek1, et1⟩ := e1
    simp only at hk1
    subst hk1
    by_cases hterm : lastIsTerm = true
    · exact ⟨false, by simp [extendScan, hna1, hterm]⟩
    · refine ⟨true, ?_⟩
      have hmem : ∃ j ∈ (l2 ++ e2 :: l3), ∃ s r,
          j.kind = SKind.endAccess s r := by
        exact ⟨e2, by simp, s2, true, hk2⟩
      have := extendScan_failed_of_endAccess noAlias mayWrite copySrc
        lastIsTerm (l2 ++ e2 :: l3) (eid1, s1) hmem
      simpa [extendScan, hna1, hterm] using this
  | cons i l1t ih =>
    intro l2 l3 e1 e2 s1 s2 hk1 hna1 hk2 hna2
    have ihr := ih l2 l3 e1 e2 s1 s2 hk1 hna1 hk2 hna2
    obtain ⟨flag0, hflag0⟩ := ihr
    obtain ⟨iid, ikind, iterm⟩ := i
    cases ikind with
    | endAccess s r =>
      by_cases hcond : ¬ (noAlias copySrc s = true) ∧ r = true
      · by_cases hterm : lastIsTerm = true
        · exact ⟨false, by simp [extendScan, hcond.1, hcond.2, hterm]⟩
        · refine ⟨true, ?_⟩
          have hmem : ∃ j ∈ (l1t ++ e1 :: l2 ++ e2 :: l3), ∃ s0 r0,
              j.kind = SKind.endAccess s0 r0 := by
            exact ⟨e1, by simp, s1, true, hk1⟩
          have := extendScan_failed_of_endAccess noAlias mayWrite copySrc
            lastIsTerm (l1t ++ e1 :: l2 ++ e2 :: l3) (iid, s) hmem
          simp only [extendScan, Option.isSome_none, Bool.false_eq_true,
            if_false, if_pos hcond, if_neg hterm]
          simpa using this
      · refine ⟨flag0, ?_⟩
        simp only [extendScan, Option.isSome_none, Bool.false_eq_true,
          if_false, if_neg hcond]
        simpa using hflag0
    | beginAccessK => exact ⟨flag0, by simpa [extendScan] using hflag0⟩
    | beginUnpairedK => exact ⟨flag0, by simpa [extendScan] using hflag0⟩
    | applyOrYield => exact ⟨flag0, by simpa [extendScan] using hflag0⟩
    | destroyAddr => exact ⟨flag0, by simpa [extendScan] using hflag0⟩
    | copyAddr st t => exact ⟨flag0, by simpa [extendScan] using hflag0⟩
    | load ot t => exact ⟨flag0, by simpa [extendScan] using hflag0⟩
    | otherKind => exact ⟨flag0, by simpa [extendScan] using hflag0⟩

/-- A successful scan that returns a candidate got it either from its input
candidate or from a Read-kind aliasing end-access of the range. -/
theorem extendScan_ok_some (noAlias mayWrite : Nat → Nat → Bool)
    (copySrc : Nat) (lastIsTerm : Bool) :
    ∀ (l : List SInst) (cand : Option (Nat × Nat)) (eid esrc : Nat),
      extendScan noAlias mayWrite copySrc lastIsTerm cand l =
        ExtResult.ok (some (eid, esrc)) →
      cand = some (eid, esrc) ∨
      ∃ e ∈ l, e.id = eid ∧ e.kind = SKind.endAccess esrc true ∧
        noAlias copySrc esrc = false := by
  intro l
  induction l with
  | nil =>
    intro cand eid esrc h
    simp only [extendScan] at h
    exact Or.inl (by injection h)
  | cons i rest ih =>
    intro cand eid esrc h
    obtain ⟨iid, ikind, iterm⟩ := i
    cases ikind with
    | endAccess s r =>
      rcases cand with _ | c
      · by_cases hcond : ¬ (noAlias copySrc s = true) ∧ r = true
        · by_cases hterm : lastIsTerm = true
          · simp [extendScan, hcond, hterm] at h
          · simp only [extendScan, Option.isSome_none, Bool.false_eq_true,
              if_false, if_pos hcond, if_neg hterm] at h
            rcases ih _ _ _ h with hl | ⟨e, he, hprops⟩
            · have h2 : eid = iid ∧ esrc = s := by simpa using hl.symm
              obtain ⟨rfl, rfl⟩ := h2
              exact Or.inr ⟨⟨eid, SKind.endAccess esrc r, iterm⟩, by simp, rfl,
                by simp [hcond.2], by simpa using hcond.1⟩
            · exact Or.inr ⟨e, List.mem_cons_of_mem _ he, hprops⟩
        · simp only [extendScan, Option.isSome_none, Bool.false_eq_true,
            if_false, if_neg hcond] at h
          rcases ih _ _ _ h with hl | ⟨e, he, hprops⟩
          · simp at hl
          · exact Or.inr ⟨e, List.mem_cons_of_mem _ he, hprops⟩
      · simp [extendScan] at h
    | beginAccessK =>
      rcases cand with _ | c
      · simp only [extendScan] at h
        rcases ih _ _ _ h with hl | ⟨e, he, hprops⟩
        · simp at hl
        · exact Or.inr ⟨e, List.mem_cons_of_mem _ he, hprops⟩
      · simp [extendScan] at h
    | beginUnpairedK =>
      rcases cand with _ | c
      · simp only [extendScan] at h
        rcases ih _ _ _ h with hl | ⟨e, he, hprops⟩
        · simp at hl
        · exact Or.inr ⟨e, List.mem_cons_of_mem _ he, hprops⟩
      · simp [extendScan] at h
    | applyOrYield =>
      rcases cand with _ | c
      · simp only [extendScan] at h
        rcases ih _ _ _ h with hl | ⟨e, he, hprops⟩
        · simp at hl
        · exact Or.inr ⟨e, List.mem_cons_of_mem _ he, hprops⟩
      · by_cases hw : mayWrite iid c.2 = true
        · simp [extendScan, hw] at h
        · simp only [extendScan, hw, Bool.false_eq_true, if_false] at h
          rcases ih _ _ _ h with hl | ⟨e, he, hprops⟩
          · exact Or.inl hl
          · exact Or.inr ⟨e, List.mem_cons_of_mem _ he, hprops⟩
    | destroyAddr =>
      rcases cand with _ | c
      · simp only [extendScan] at h
        rcases ih _ _ _ h with hl | ⟨e, he, hprops⟩
        · simp at hl
        · exact Or.inr ⟨e, List.mem_cons_of_mem _ he, hprops⟩
      · by_cases hw : mayWrite iid c.2 = true
        · simp [extendScan, hw] at h
        · simp only [extendScan, hw, Bool.false_eq_true, if_false] at h
          rcases ih _ _ _ h with hl | ⟨e, he, hprops⟩
          · exact Or.inl hl
          · exact Or.inr ⟨e, List.mem_cons_of_mem _ he, hprops⟩
    | copyAddr st t =>
      rcases cand with _ | c
      · simp only [extendScan] at h
        rcases ih _ _ _ h with hl | ⟨e, he, hprops⟩
        · simp at hl
        · exact Or.inr ⟨e, List.mem_cons_of_mem _ he, hprops⟩
      · by_cases hw : mayWrite iid c.2 = true
        · simp [extendScan, hw] at h
        · simp only [extendScan, hw, Bool.false_eq_true, if_false] at h
          rcases ih _ _ _ h with hl | ⟨e, he, hprops⟩
          · exact Or.inl hl
          · exact Or.inr ⟨e, List.mem_cons_of_mem _ he, hprops⟩
    | load ot t =>
      rcases cand with _ | c
      · simp only [extendScan] at h
        rcases ih _ _ _ h with hl | ⟨e, he, hprops⟩
        · simp at hl
        · exact Or.inr ⟨e, List.mem_cons_of_mem _ he, hprops⟩
      · by_cases hw : mayWrite iid c.2 = true
        · simp [extendScan, hw] at h
        · simp only [extendScan, hw, Bool.false_eq_true, if_false] at h
          rcases ih _ _ _ h with hl | ⟨e, he, hprops⟩
          · exact Or.inl hl
          · exact Or.inr ⟨e, List.mem_cons_of_mem _ he, hprops⟩
    | otherKind =>
      rcases cand with _ | c
      · simp only [extendScan] at h
        rcases ih _ _ _ h with hl | ⟨e, he, hprops⟩
        · simp at hl
        · exact Or.inr ⟨e, List.mem_cons_of_mem _ he, hprops⟩
      · by_cases hw : mayWrite iid c.2 = true
        · simp [extendScan, hw] at h
        · simp only [extendScan, hw, Bool.false_eq_true, if_false] at h
          rcases ih _ _ _ h with hl | ⟨e, he, hprops⟩
          · exact Or.inl hl
          · exact Or.inr ⟨e, List.mem_cons_of_mem _ he, hprops⟩

/-- With duplicate-free instruction ids, filtering the range for the chosen
end-access's id yields exactly that instruction. -/
theorem filter_id_eq_of_nodup :
    ∀ (range : List SInst) (e : SInst), e ∈ range →
      (range.map SInst.id).Nodup →
      range.filter (fun i => i.id = e.id) = [e] := by
  intro range
  induction range with
  | nil => intro e he; simp at he
  | cons x xs ih =>
    intro e he hnd
    simp only [List.map_cons, List.nodup_cons] at hnd
    obtain ⟨hx, hnd2⟩ := hnd
    by_cases hid : x.id = e.id
    · have hex : e = x := by
        rcases List.mem_cons.mp he with rfl | he2
        · rfl
        · exact absurd (hid ▸ List.mem_map_of_mem SInst.id he2) hx
      subst hex
      have hfe : xs.filter (fun i => decide (i.id = e.id)) = [] := by
        refine List.filter_eq_nil_iff.mpr ?_
        intro a ha
        simp only [decide_eq_true_eq]
        intro haid
        exact hx (haid ▸ List.mem_map_of_mem SInst.id ha)
      simpa [List.filter_cons, hid] using hfe
    · have he2 : e ∈ xs := by
        rcases List.mem_cons.mp he with rfl | he2
        · exact absurd rfl hid
        · exact he2
      simpa [List.filter_cons, hid] using ih e he2 hnd2

/-- C5: during scope extension at most one end-access is relocated — a second
Read-kind aliasing end-access in the scanned range fails the extension; a
candidate found while the boundary is a terminator fails the extension; on
success the chosen end-access is a Read-kind aliasing end-access of the range
and is moved to immediately after the boundary instruction (the last
instruction of the scanned range). -/
theorem extendAccessScopes_spec (noAlias mayWrite : Nat → Nat → Bool)
    (copySrc : Nat) (lastIsTerm : Bool) :
    (∀ (l1 l2 l3 : List SInst) (e1 e2 : SInst) (s1 s2 : Nat),
      e1.kind = SKind.endAccess s1 true → noAlias copySrc s1 = false →
      e2.kind = SKind.endAccess s2 true → noAlias copySrc s2 = false →
      extendAccessScopes noAlias mayWrite copySrc lastIsTerm
        (l1 ++ e1 :: l2 ++ e2 :: l3) = none) ∧
    (∀ (range : List SInst) (e : SInst) (s : Nat),
      e ∈ range → e.kind = SKind.endAccess s true → noAlias copySrc s = false →
      extendAccessScopes noAlias mayWrite copySrc true range = none) ∧
    (∀ (range : List SInst) (eid esrc : Nat),
      extendAccessScopes noAlias mayWrite copySrc lastIsTerm range =
        some (some (eid, esrc)) →
      ∃ e ∈ range, e.id = eid ∧ e.kind = SKind.endAccess esrc true ∧
        noAlias copySrc esrc = false) ∧
    (∀ (range : List SInst) (e : SInst),
      e ∈ range → (range.map SInst.id).Nodup →
      moveEndAccessAfterBoundary range e.id =
        range.filter (fun i => i.id ≠ e.id) ++ [e]) := by
  refine ⟨?_, ?_, ?_, ?_⟩
  · intro l1 l2 l3 e1 e2 s1 s2 hk1 hna1 hk2 hna2
    obtain ⟨flag, hflag⟩ := extendScan_failed_of_two_candidates noAlias mayWrite
      copySrc lastIsTerm l1 l2 l3 e1 e2 s1 s2 hk1 hna1 hk2 hna2
    unfold extendAccessScopes
    rw [hflag]
  · intro range e s he hk hna
    obtain ⟨flag, hflag⟩ := extendScan_failed_of_term noAlias mayWrite copySrc
      range ⟨e, he, s, hk, hna⟩
    simp [extendAccessScopes, hflag]
  · intro range eid esrc h
    rcases hscan : extendScan noAlias mayWrite copySrc lastIsTerm none range
      with flag | m
    · simp [extendAccessScopes, hscan] at h
    · rw [extendAccessScopes, hscan] at h
      have hm : m = some (eid, esrc) := by simpa using h
      subst hm
      rcases extendScan_ok_some noAlias mayWrite copySrc lastIsTerm range
        none eid esrc hscan with hl | hr
      · simp at hl
      · exact hr
  · intro range e he hnd
    rw [moveEndAccessAfterBoundary, filter_id_eq_of_nodup range e he hnd]

/-- Witness for C5 at concrete inputs: a range with two Read-kind aliasing
end-accesses fails the extension. -/
theorem extendAccessScopes_spec_witness :
    extendAccessScopes (fun _ _ => false) (fun _ _ => false) 0 false
      ([] ++ SInst.mk 1 (SKind.endAccess 5 true) false ::
        ([] ++ SInst.mk 2 (SKind.endAccess 6 true) false :: [])) = none :=
  (extendAccessScopes_spec (fun _ _ => false) (fun _ _ => false) 0 false).1
    [] [] [] (SInst.mk 1 (SKind.endAccess 5 true) false)
    (SInst.mk 2 (SKind.endAccess 6 true) false) 5 6 rfl rfl rfl rfl

/-- C6: the destroy-pattern validator accepts exactly when the liveness
frontier was computed and every frontier point is not at the start of a basic
block and is immediately preceded by a destroy-address of the temporary or a
take-of-source copy-address reading the temporary; and in linear-ownership
(OSSA) mode the validator is never consulted — the rewrite's outcome is
independent of the frontier oracle. -/
theorem checkTempObjectDestroy_spec :
    (∀ frontier, checkTempObjectDestroy frontier = true ↔
      ∃ pts, frontier = some pts ∧ ∀ p ∈ pts, p.atBlockBegin = false ∧
        (p.prev = PrevK.destroyAddrP ∨ p.prev = PrevK.copyAddrP true)) ∧
    (∀ (cfg : CopyConfig) (f1 f2 : Option (List FrontierPt)),
      cfg.isOSSA = true →
      tryOptimizeCopyIntoTemp { cfg with frontier := f1 } =
        tryOptimizeCopyIntoTemp { cfg with frontier := f2 }) := by
  constructor
  · intro frontier
    cases frontier with
    | none => simp [checkTempObjectDestroy]
    | some pts =>
      simp only [checkTempObjectDestroy, List.all_eq_true]
      constructor
      · intro h
        refine ⟨pts, rfl, fun p hp => ?_⟩
        have hpt := h p hp
        obtain ⟨ab, pv⟩ := p
        cases ab <;> cases pv <;> simp_all
      · rintro ⟨pts2, heq, hall⟩
        obtain rfl : pts2 = pts := by
          have := Option.some.inj heq
          exact this.symm
        intro p hp
        have hpt := hall p hp
        obtain ⟨ab, pv⟩ := p
        obtain ⟨hab, hpv⟩ := hpt
        subst hab
        rcases hpv with h2 | h2 <;> simp_all
  · intro cfg f1 f2 h
    simp [tryOptimizeCopyIntoTemp, h]

/-- Witness for C6 at concrete inputs: in OSSA mode the outcome is the same
under a failed and under an empty frontier computation. -/
theorem checkTempObjectDestroy_spec_witness :
    tryOptimizeCopyIntoTemp { cfgOssa with frontier := none } =
      tryOptimizeCopyIntoTemp { cfgOssa with frontier := some [] } :=
  checkTempObjectDestroy_spec.2 cfgOssa none (some []) rfl

/-- Inversion of a successful copy elimination: the commit's effect is
determined by the collected reads, the computed boundary and the scope
extension, all of which succeeded. -/
theorem tryOptimizeCopyIntoTemp_some_inv (cfg : CopyConfig) (eff : CommitEffect)
    (h : tryOptimizeCopyIntoTemp cfg = some eff) :
    ∃ loads b range moved,
      collectAllUses cfg.isOSSA cfg.isTakeOfSrc cfg.copyBlk cfg.uses [] =
        some loads ∧
      getLastUseWhileSourceIsNotModified loads
        (fun i => cfg.mayWrite i.id cfg.copySrc) cfg.instsAfter =
        some (b, range) ∧
      extendAccessScopes cfg.noAlias cfg.mayWrite cfg.copySrc
        (boundaryIsTerm b) range = some moved ∧
      eff = { rewrites := cfg.uses.map (rewriteUse cfg.isTakeOfSrc (boundaryId b))
              destroyOfSrcInserted := needToInsertDestroy cfg.isTakeOfSrc b
              movedEndAccess := moved
              tempAllocErased := true } := by
  unfold tryOptimizeCopyIntoTemp at h
  repeat' split at h
  any_goals exact Option.noConfusion h
  obtain rfl : _ = eff := Option.some.inj h
  exact ⟨_, _, _, _, by assumption, by assumption, by assumption, rfl⟩

/-- The commit's `needToInsertDestroy` lambda computes exactly "the copy took
its source and the boundary is not itself the final consuming take". -/
theorem needToInsertDestroy_eq (nfd : Bool) (b : Boundary) :
    needToInsertDestroy nfd b = (nfd && ! boundaryIsFinalConsumingTake b) := by
  cases b with
  | initCopyB =>
    cases nfd <;> simp [needToInsertDestroy, boundaryIsFinalConsumingTake]
  | instB s =>
    obtain ⟨sid, skind, sterm⟩ := s
    cases nfd <;> cases skind <;>
      simp [needToInsertDestroy, boundaryIsFinalConsumingTake]

/-- C1: after a committed copy elimination the temporary's allocation is
erased and every direct use is rewritten (none is left referring to the
temporary); `destroy_addr` and `dealloc_stack` users are erased; a destroy of
the copy's source is synthesized after the boundary exactly when the copy
took its source and the boundary is not itself the final consuming take; and
every non-boundary take-copy and take-load from the temporary is converted to
its non-consuming form. -/
theorem commit_effect_spec (cfg : CopyConfig) (eff : CommitEffect)
    (loads : List Nat) (b : Boundary) (range : List SInst)
    (hc : collectAllUses cfg.isOSSA cfg.isTakeOfSrc cfg.copyBlk cfg.uses [] =
      some loads)
    (hb : getLastUseWhileSourceIsNotModified loads
      (fun i => cfg.mayWrite i.id cfg.copySrc) cfg.instsAfter =
      some (b, range))
    (h : tryOptimizeCopyIntoTemp cfg = some eff) :
    eff.tempAllocErased = true ∧
    eff.rewrites = cfg.uses.map (rewriteUse cfg.isTakeOfSrc (boundaryId b)) ∧
    (∀ id blk, TUse.destroyAddrU id blk ∈ cfg.uses →
      Rewritten.erased id ∈ eff.rewrites) ∧
    (∀ id blk, TUse.deallocStackU id blk ∈ cfg.uses →
      Rewritten.erased id ∈ eff.rewrites) ∧
    eff.destroyOfSrcInserted =
      (cfg.isTakeOfSrc && ! boundaryIsFinalConsumingTake b) ∧
    (∀ id blk d, TUse.regular id blk (UseT.copyAddrK d true) ∈ cfg.uses →
      boundaryId b ≠ some id → Rewritten.copyFromSrc id false ∈ eff.rewrites) ∧
    (∀ id blk, TUse.regular id blk (UseT.loadK true) ∈ cfg.uses →
      boundaryId b ≠ some id → Rewritten.loadFromSrc id false ∈ eff.rewrites) := by
  obtain ⟨loads2, b2, range2, moved2, hc2, hb2, hext2, heff⟩ :=
    tryOptimizeCopyIntoTemp_some_inv cfg eff h
  obtain rfl : loads2 = loads := by
    have := hc2.symm.trans hc
    exact Option.some.inj this
  obtain ⟨rfl, rfl⟩ : b2 = b ∧ range2 = range := by
    have := hb2.symm.trans hb
    have h2 := Option.some.inj this
    exact ⟨congrArg Prod.fst h2, congrArg Prod.snd h2⟩
  subst heff
  refine ⟨rfl, rfl, ?_, ?_, needToInsertDestroy_eq cfg.isTakeOfSrc b2, ?_, ?_⟩
  · intro id blk hmem
    exact List.mem_map_of_mem (rewriteUse cfg.isTakeOfSrc (boundaryId b2)) hmem
  · intro id blk hmem
    exact List.mem_map_of_mem (rewriteUse cfg.isTakeOfSrc (boundaryId b2)) hmem
  · intro id blk d hmem hbne
    have hval : rewriteUse cfg.isTakeOfSrc (boundaryId b2)
        (TUse.regular id blk (UseT.copyAddrK d true)) =
        Rewritten.copyFromSrc id false := by
      simp [rewriteUse, hbne]
    exact hval ▸ List.mem_map_of_mem (rewriteUse cfg.isTakeOfSrc (boundaryId b2)) hmem
  · intro id blk hmem hbne
    have hval : rewriteUse cfg.isTakeOfSrc (boundaryId b2)
        (TUse.regular id blk (UseT.loadK true)) =
        Rewritten.loadFromSrc id false := by
      simp [rewriteUse, hbne]
    exact hval ▸ List.mem_map_of_mem (rewriteUse cfg.isTakeOfSrc (boundaryId b2)) hmem

/-- Witness for C1 at the concrete candidate `cfgC1`: the destroy of the
temporary is erased, the allocation is erased, and the destroy of the source
is synthesized (the boundary, a `destroy_addr`, is not a consuming take). -/
theorem commit_effect_spec_witness :
    effC1.tempAllocErased = true ∧
    Rewritten.erased 2 ∈ effC1.rewrites ∧
    effC1.destroyOfSrcInserted =
      (cfgC1.isTakeOfSrc && ! boundaryIsFinalConsumingTake
        (Boundary.instB (SInst.mk 2 SKind.destroyAddr false))) := by
  have H := commit_effect_spec cfgC1 effC1 [2, 1]
    (Boundary.instB (SInst.mk 2 SKind.destroyAddr false))
    [SInst.mk 1 (SKind.load true false) false, SInst.mk 2 SKind.destroyAddr false]
    rfl rfl rfl
  exact ⟨H.1, H.2.2.1 2 0 (by simp [cfgC1]), H.2.2.2.2.1⟩

/-- C9: the commit never erases the initializing copy — its outcome is the
identity copy (destination operand redirected to the source, so source and
destination become identical); and the driver queues every scanned copy whose
source equals its destination, erases it after the scan, and hands its
source-defining instruction to the simplifier. -/
theorem identity_copy_cleanup_spec :
    (∀ (nfd : Bool) (bid : Option Nat),
      rewriteUse nfd bid TUse.initCopy = Rewritten.identityCopy) ∧
    (∀ (cfg : CopyConfig) (eff : CommitEffect),
      tryOptimizeCopyIntoTemp cfg = some eff → TUse.initCopy ∈ cfg.uses →
      Rewritten.identityCopy ∈ eff.rewrites) ∧
    (∀ (l : List RInst) (i : RInst), i ∈ l → i.isCopyAddr = true →
      i.srcEqDest = true →
      i.id ∈ collectDeadCopies l ∧ i ∉ (driverCleanup l).remaining ∧
      ∀ d, i.srcDef = some d → d ∈ (driverCleanup l).simplified) := by
  refine ⟨fun nfd bid => rfl, ?_, ?_⟩
  · intro cfg eff h hmem
    obtain ⟨loads2, b2, range2, moved2, hc2, hb2, hext2, heff⟩ :=
      tryOptimizeCopyIntoTemp_some_inv cfg eff h
    subst heff
    exact List.mem_map_of_mem (rewriteUse cfg.isTakeOfSrc (boundaryId b2)) hmem
  · intro l i hmem h1 h2
    have hfil : i ∈ l.filter fun j => j.isCopyAddr && j.srcEqDest := by
      refine List.mem_filter.mpr ⟨hmem, ?_⟩
      simp [h1, h2]
    refine ⟨?_, ?_, ?_⟩
    · exact List.mem_map_of_mem (fun j => j.id) hfil
    · intro hrem
      have := (List.mem_filter.mp hrem).2
      simp [h1, h2] at this
    · intro d hd
      exact List.mem_filterMap.mpr ⟨i, hfil, hd⟩

/-- Witness for C9 at concrete inputs: applying the driver cleanup to a
single identity copy with a defined source. -/
theorem identity_copy_cleanup_spec_witness :
    (4 : Nat) ∈ collectDeadCopies [RInst.mk 4 true true (some 9)] ∧
    RInst.mk 4 true true (some 9) ∉
      (driverCleanup [RInst.mk 4 true true (some 9)]).remaining ∧
    ∀ d, (RInst.mk 4 true true (some 9)).srcDef = some d →
      d ∈ (driverCleanup [RInst.mk 4 true true (some 9)]).simplified :=
  identity_copy_cleanup_spec.2.2 [RInst.mk 4 true true (some 9)]
    (RInst.mk 4 true true (some 9)) (by simp) rfl rfl

/-- C8: in the store-elimination rewrite every load of the temporary is
replaced by the stored value — directly with no duplication when the load is
consuming (Take), via a freshly created duplicate when it is non-consuming
(Copy) — and the load itself is deleted. -/
theorem storeRewrite_load_replacement :
    ∀ (us : List StUse) (rs : List StRes), rewriteStoreUses us = some rs →
    ∀ (id : Nat) (q : LoadQ), StUse.loadS id q ∈ us →
      StRes.loadReplacedBySrc id (decide (q = LoadQ.copyQ)) ∈ rs ∧
      (q = LoadQ.takeQ → StRes.loadReplacedBySrc id false ∈ rs) ∧
      (q = LoadQ.copyQ → StRes.loadReplacedBySrc id true ∈ rs) ∧
      id ∈ storeDeletedIds rs := by
  intro us
  induction us with
  | nil => intro rs h id q hmem; simp at hmem
  | cons u rest ih =>
    intro rs h id q hmem
    rcases hru : rewriteStoreUse u with _ | r
    · rw [rewriteStoreUses, hru] at h
      simp at h
    · rcases hrr : rewriteStoreUses rest with _ | rs2
      · rw [rewriteStoreUses, hru, hrr] at h
        simp at h
      · rw [rewriteStoreUses, hru, hrr] at h
        have hrs : rs = r :: rs2 := by simpa using h.symm
        subst hrs
        rcases List.mem_cons.mp hmem with rfl | hmem2
        · have hr : r = StRes.loadReplacedBySrc id (decide (q = LoadQ.copyQ)) := by
            simpa [rewriteStoreUse] using hru.symm
          subst hr
          refine ⟨by simp, ?_, ?_, by simp [storeDeletedIds, stResId]⟩
          · rintro rfl; simp
          · rintro rfl; simp
        · obtain ⟨g1, g2, g3, g4⟩ := ih rs2 hrr id q hmem2
          refine ⟨List.mem_cons_of_mem _ g1, ?_, ?_, ?_⟩
          · intro hq; exact List.mem_cons_of_mem _ (g2 hq)
          · intro hq; exact List.mem_cons_of_mem _ (g3 hq)
          · simp only [storeDeletedIds, List.map_cons, List.mem_cons]
            exact Or.inr g4

/-- Witness for C8 at concrete inputs: a `load [take]` (id 4) and a
`load [copy]` (id 5) of the temporary. -/
theorem storeRewrite_load_replacement_witness :
    StRes.loadReplacedBySrc 4 (decide ((LoadQ.takeQ : LoadQ) = LoadQ.copyQ)) ∈
      [StRes.loadReplacedBySrc 4 false, StRes.loadReplacedBySrc 5 true,
        StRes.deletedOnly 6] ∧
    ((LoadQ.takeQ : LoadQ) = LoadQ.takeQ →
      StRes.loadReplacedBySrc 4 false ∈
        [StRes.loadReplacedBySrc 4 false, StRes.loadReplacedBySrc 5 true,
          StRes.deletedOnly 6]) ∧
    ((LoadQ.takeQ : LoadQ) = LoadQ.copyQ →
      StRes.loadReplacedBySrc 4 true ∈
        [StRes.loadReplacedBySrc 4 false, StRes.loadReplacedBySrc 5 true,
          StRes.deletedOnly 6]) ∧
    (4 : Nat) ∈ storeDeletedIds
      [StRes.loadReplacedBySrc 4 false, StRes.loadReplacedBySrc 5 true,
        StRes.deletedOnly 6] :=
  storeRewrite_load_replacement
    [StUse.loadS 4 LoadQ.takeQ, StUse.loadS 5 LoadQ.copyQ, StUse.deallocStackS 6]
    [StRes.loadReplacedBySrc 4 false, StRes.loadReplacedBySrc 5 true,
      StRes.deletedOnly 6] rfl 4 LoadQ.takeQ (by simp)

/-- C7: every disqualification returns with the IR unmodified for the
candidate — if the copy is not an initialization, the destination is not a
stack allocation, the lexical guard fails, use collection fails, the ordering
check fails, the boundary computation fails, the re-initialization guard
fires, the destroy-pattern validation fails, or the scope extension fails
before a relocation candidate is selected, then the rewriter produces no
effect: nothing is inserted, erased, moved, or redirected. -/
theorem disqualification_no_effect (cfg : CopyConfig) :
    (cfg.isInitOfDest = false ∨
     cfg.destIsAllocStack = false ∨
     (cfg.tempIsLexical = true ∧
       (cfg.lexicalBase = none ∨
        cfg.lexicalBase = some (LexBase.funcArg false))) ∨
     collectAllUses cfg.isOSSA cfg.isTakeOfSrc cfg.copyBlk cfg.uses [] = none ∨
     (cfg.instsBefore.any fun i => i ∈ userIds cfg.uses) = true ∨
     (∃ loads,
       collectAllUses cfg.isOSSA cfg.isTakeOfSrc cfg.copyBlk cfg.uses [] =
         some loads ∧
       getLastUseWhileSourceIsNotModified loads
         (fun i => cfg.mayWrite i.id cfg.copySrc) cfg.instsAfter = none) ∨
     (∃ loads b range,
       collectAllUses cfg.isOSSA cfg.isTakeOfSrc cfg.copyBlk cfg.uses [] =
         some loads ∧
       getLastUseWhileSourceIsNotModified loads
         (fun i => cfg.mayWrite i.id cfg.copySrc) cfg.instsAfter =
         some (b, range) ∧
       reinitGuardFires cfg.isTakeOfSrc
         (fun i => cfg.mayWrite i.id cfg.copySrc) b = true) ∨
     (cfg.isOSSA = false ∧ checkTempObjectDestroy cfg.frontier = false) ∨
     (∃ loads b range,
       collectAllUses cfg.isOSSA cfg.isTakeOfSrc cfg.copyBlk cfg.uses [] =
         some loads ∧
       getLastUseWhileSourceIsNotModified loads
         (fun i => cfg.mayWrite i.id cfg.copySrc) cfg.instsAfter =
         some (b, range) ∧
       extendScan cfg.noAlias cfg.mayWrite cfg.copySrc (boundaryIsTerm b)
         none range = ExtResult.failed false)) →
    tryOptimizeCopyIntoTemp cfg = none := by
  intro hdisj
  unfold tryOptimizeCopyIntoTemp
  rcases hdisj with h1 | h2 | h3 | h4 | h5 | h6 | h7 | h8 | h9
  · repeat' split <;> try rfl
    all_goals simp_all
  · repeat' split <;> try rfl
    all_goals simp_all
  · repeat' split <;> try rfl
    all_goals simp_all
  · repeat' split <;> try rfl
    all_goals simp_all
  · repeat' split <;> try rfl
    all_goals simp_all
  · obtain ⟨loads, hl, hg⟩ := h6
    repeat' split <;> try rfl
    all_goals simp_all
  · obtain ⟨loads, b, range, hl, hg, hfire⟩ := h7
    repeat' split <;> try rfl
    all_goals simp_all
  · repeat' split <;> try rfl
    all_goals simp_all
  · obtain ⟨loads, b, range, hl, hg, hfail⟩ := h9
    have hnone : extendAccessScopes cfg.noAlias cfg.mayWrite cfg.copySrc
        (boundaryIsTerm b) range = none := by
      unfold extendAccessScopes
      rw [hfail]
    repeat' split <;> try rfl
    all_goals simp_all

/-- Witness for C7 at the concrete candidate `cfgNoDestInit`: a copy that is
not an initialization of its destination is left alone. -/
theorem disqualification_no_effect_witness :
    tryOptimizeCopyIntoTemp cfgNoDestInit = none :=
  disqualification_no_effect cfgNoDestInit (Or.inl rfl)

end TempRValue
